import Mathlib

/-
Verification of the file-backed job queue (storage.py, queue_manager.py,
models.py) against its natural-language specification.

Shallow embedding conventions:
- The on-disk job table `{"jobs": [...]}` is a `List JobRec` in storage order.
- A stored job dict is `JobRec`; timestamps are abstract `Int` seconds
  (ISO-string formatting/parsing is below this abstraction, every operation
  takes the current time `now : Int` as an explicit parameter).
- The `Job` dataclass of models.py is a separate structure `Job`: it has NO
  stdout/stderr fields, and `Job.from_dict` fails with a TypeError (modelled
  as `QErr.typeError`) exactly when the stored dict carries a `stdout` or
  `stderr` key, mirroring `cls(**merged)` on a dataclass lacking those
  parameters.
- Python exceptions become `Except QErr`; `KeyError`/`ValueError("Job not
  found")` is `QErr.notFound`, `ValueError("Job is not in Dead Letter
  Queue")` is `QErr.invalidState`.
- The atomic temp-file write is modelled as always succeeding; the bounded
  retry loops around it collapse to a single pass.
- Python truthiness of optional arguments (`if state:`, `if limit:`,
  `if next_retry:`) is modelled explicitly where the source relies on it.
-/

deriving instance DecidableEq for Except

namespace JobQueue

/-- A stored job dict, as kept in the `jobs` array of the JSON file.
Fields follow models.py's Job plus the `stdout`/`stderr` keys that
queue_manager.py's `fail_job` (and worker.py) write into the store. -/
structure JobRec where
  id : String
  command : String
  state : String
  attempts : Nat
  max_retries : Nat
  created_at : Int
  updated_at : Int
  error_message : Option String
  next_retry_at : Option Int
  stdout : Option String
  stderr : Option String
deriving DecidableEq

/-- The job table in storage order (the `jobs` list of the JSON document). -/
abbrev Table := List JobRec

/-- The Job dataclass of models.py.  It deliberately has no stdout/stderr
fields: the dataclass declares only these nine. -/
structure Job where
  id : String
  command : String
  state : String
  attempts : Nat
  max_retries : Nat
  created_at : Int
  updated_at : Int
  error_message : Option String
  next_retry_at : Option Int
deriving DecidableEq

/-- Errors surfaced by the queue manager operations. -/
inductive QErr where
  | notFound
  | invalidState
  | typeError
deriving DecidableEq

/-- models.py `Job.from_dict`: builds the dataclass from a stored dict.
`cls(**merged)` raises TypeError when the dict holds a key the dataclass
does not declare; with our fixed record schema that happens exactly when
`stdout` or `stderr` is present. -/
def Job.from_dict (r : JobRec) : Except QErr Job :=
  if r.stdout.isSome ∨ r.stderr.isSome then .error .typeError
  else .ok ⟨r.id, r.command, r.state, r.attempts, r.max_retries,
            r.created_at, r.updated_at, r.error_message, r.next_retry_at⟩

/-- storage.py `Storage.get_job`: linear scan, first record whose id
matches, `None` if absent. -/
def getJob : Table → String → Option JobRec
  | [], _ => none
  | j :: rest, jobId => if j.id = jobId then some j else getJob rest jobId

/-- storage.py `Storage.update_job` / `atomic_state_transition` update the
first record whose id matches, in place, leaving the rest of the table
untouched; absent id leaves the table unchanged (callers check presence). -/
def updateFirst (jobId : String) (f : JobRec → JobRec) : Table → Table
  | [] => []
  | j :: rest => if j.id = jobId then f j :: rest else j :: updateFirst jobId f rest

/-- storage.py `Storage.list_jobs`: `if state:` filters (so `None` AND the
empty string both mean "no filter"), `if limit:` truncates (so `None` AND
`0` both mean "no limit"). -/
def list_jobs (t : Table) (stateF : Option String) (lim : Option Nat) : Table :=
  let jobs := match stateF with
    | some s => if s ≠ "" then t.filter (fun j => j.state == s) else t
    | none => t
  match lim with
  | some n => if n ≠ 0 then jobs.take n else jobs
  | none => jobs

/-- The `extra` dict passed to `atomic_state_transition`, restricted to the
job fields the system ever stores.  `none` means the key is absent from the
dict; for optional-valued fields `some none` means the key is present with
value `None`. -/
structure Extra where
  state : Option String := none
  attempts : Option Nat := none
  max_retries : Option Nat := none
  error_message : Option (Option String) := none
  next_retry_at : Option (Option Int) := none
  stdout : Option (Option String) := none
  stderr : Option (Option String) := none
deriving DecidableEq

/-- The empty extra dict `{}`. -/
def Extra.empty : Extra := {}

/-- Python dict `update`: each key present in `e` overrides the record. -/
def applyExtra (j : JobRec) (e : Extra) : JobRec :=
  { j with
    state := e.state.getD j.state
    attempts := e.attempts.getD j.attempts
    max_retries := e.max_retries.getD j.max_retries
    error_message := e.error_message.getD j.error_message
    next_retry_at := e.next_retry_at.getD j.next_retry_at
    stdout := e.stdout.getD j.stdout
    stderr := e.stderr.getD j.stderr }

/-- storage.py `Storage.atomic_state_transition`: find the record by id
(absent: False, unchanged); if its state differs from `fromSt`: False,
unchanged; otherwise set `state := toSt`, merge `extra` over that (so an
extra `state` key wins, as `new_job.update(extra)` runs second), then set
`updated_at` to the current time, persist and return True.  The write is
modelled as succeeding. -/
def atomicStateTransition (t : Table) (jobId : String) (fromSt toSt : String)
    (e : Extra) (now : Int) : Bool × Table :=
  match getJob t jobId with
  | none => (false, t)
  | some j =>
    if j.state = fromSt then
      (true, updateFirst jobId
        (fun x => { applyExtra { x with state := toSt } e with updated_at := now }) t)
    else (false, t)

/-- Per-state tallies returned by `get_stats`. -/
structure Stats where
  pending : Nat
  processing : Nat
  completed : Nat
  failed : Nat
  dead : Nat
  total : Nat
deriving DecidableEq

/-- One loop iteration of queue_manager.py `get_stats`: `if s in stats`
bumps that key — and `"total"` IS a key of the stats dict — else the
defensive `failed` bucket. -/
def bumpStat (s : Stats) (st : String) : Stats :=
  if st = "pending" then { s with pending := s.pending + 1 }
  else if st = "processing" then { s with processing := s.processing + 1 }
  else if st = "completed" then { s with completed := s.completed + 1 }
  else if st = "failed" then { s with failed := s.failed + 1 }
  else if st = "dead" then { s with dead := s.dead + 1 }
  else if st = "total" then { s with total := s.total + 1 }
  else { s with failed := s.failed + 1 }

/-- queue_manager.py `QueueManager.get_stats`: full scan, `total`
initialised to the number of records, then the per-record bump above. -/
def get_stats (t : Table) : Stats :=
  t.foldl (fun s j => bumpStat s j.state) ⟨0, 0, 0, 0, 0, t.length⟩

/-- queue_manager.py `QueueManager.enqueue`: initial state is `pending`, or
`scheduled` with `next_retry_at := run_at` when a `run_at` instant is given;
`attempts := 0`; `max_retries` from the caller (or the config default, which
the caller of this model resolves); the record is appended to the table. -/
def enqueue (t : Table) (jobId cmd : String) (mr : Nat) (runAt : Option Int)
    (now : Int) : Table :=
  let st := match runAt with
    | none => "pending"
    | some _ => "scheduled"
  t ++ [{ id := jobId
          command := cmd
          state := st
          attempts := 0
          max_retries := mr
          created_at := now
          updated_at := now
          error_message := none
          next_retry_at := runAt
          stdout := none
          stderr := none }]

/-- queue_manager.py `QueueManager.complete_job`: fetch (KeyError when
absent), overwrite with the full record plus `state := "completed"` and a
fresh `updated_at`, persist via `update_job`, then re-build the dataclass
with `Job.from_dict`. -/
def complete_job (t : Table) (jobId : String) (now : Int) :
    Except QErr Job × Table :=
  match getJob t jobId with
  | none => (.error .notFound, t)
  | some j =>
    let nj : JobRec := { j with state := "completed", updated_at := now }
    (Job.from_dict nj, updateFirst jobId (fun _ => nj) t)

/-- Python `payload["stdout"] = stdout` guarded by `if stdout is not None`,
followed by the dict merge of `update_job`: a supplied value overrides, an
absent one keeps the stored value. -/
def mergeOut : Option String → Option String → Option String
  | some s, _ => some s
  | none, old => old

/-- queue_manager.py `QueueManager.fail_job`: fetch (KeyError when absent);
`attempts := stored + 1`.  Past `max_retries`: state `dead`, persisting
`error_message` (Python `str(error_message or "")`), `updated_at`, and the
supplied stdout/stderr.  Otherwise: state `scheduled`, same fields plus
`next_retry_at := now + backoff_base ^ (attempts - 1)`.  Either way the
return value goes through `Job.from_dict` on the merged record. -/
def fail_job (backoff_base : Nat) (t : Table) (jobId : String)
    (err out errOut : Option String) (now : Int) : Except QErr Job × Table :=
  match getJob t jobId with
  | none => (.error .notFound, t)
  | some j =>
    let attempts := j.attempts + 1
    if attempts > j.max_retries then
      let nj : JobRec := { j with
        state := "dead"
        attempts := attempts
        error_message := some (err.getD "")
        updated_at := now
        stdout := mergeOut out j.stdout
        stderr := mergeOut errOut j.stderr }
      (Job.from_dict nj, updateFirst jobId (fun _ => nj) t)
    else
      let delay : Int := (backoff_base : Int) ^ (attempts - 1)
      let nj : JobRec := { j with
        state := "scheduled"
        attempts := attempts
        next_retry_at := some (now + delay)
        error_message := some (err.getD "")
        updated_at := now
        stdout := mergeOut out j.stdout
        stderr := mergeOut errOut j.stderr }
      (Job.from_dict nj, updateFirst jobId (fun _ => nj) t)

/-- queue_manager.py `QueueManager.retry_dlq_job`: fetch (ValueError when
absent); ValueError("Job is not in Dead Letter Queue") unless the state is
`dead`; otherwise reset `attempts := 0`, clear `error_message` and
`next_retry_at`, set state `pending`, refresh `updated_at`. -/
def retry_dlq_job (t : Table) (jobId : String) (now : Int) :
    Except QErr Job × Table :=
  match getJob t jobId with
  | none => (.error .notFound, t)
  | some j =>
    if j.state = "dead" then
      let nj : JobRec := { j with
        state := "pending"
        attempts := 0
        error_message := none
        next_retry_at := none
        updated_at := now }
      (Job.from_dict nj, updateFirst jobId (fun _ => nj) t)
    else (.error .invalidState, t)

/-- The guard `if next_retry:` followed by `if t > now_ts: continue` in
`claim_next_job`: true when `next_retry_at` is set and strictly in the
future (an absent value never defers the job). -/
def retryFuture (now : Int) (j : JobRec) : Bool :=
  match j.next_retry_at with
  | some ts => decide (ts > now)
  | none => false

/-- The scan loop of queue_manager.py `QueueManager.claim_next_job` over a
snapshot of candidates, with concurrent interference made explicit: the
table each CAS attempt reads from its own `_read` is `env k` for the k-th
CAS attempt of this call.  Structure mirrors the Python loop: skip when the
state is neither `pending` nor `scheduled`; skip when `next_retry_at` is
set and strictly in the future; otherwise attempt
`atomic_state_transition(id, its snapshot state, "processing", {})`; on
success return `get_job` re-read from the table the CAS produced, on
failure continue with the remaining candidates. -/
def claimScan (now : Int) (env : Nat → Table) : List JobRec → Nat → Option JobRec
  | [], _ => none
  | j :: rest, k =>
    if j.state ≠ "pending" ∧ j.state ≠ "scheduled" then claimScan now env rest k
    else if retryFuture now j then claimScan now env rest k
    else
      let res := atomicStateTransition (env k) j.id j.state "processing" Extra.empty now
      if res.1 then getJob res.2 j.id else claimScan now env rest (k + 1)

/-- queue_manager.py `QueueManager.claim_next_job` with explicit
interference: `snap` is the candidate list returned by the initial
`list_jobs()` read, `env k` the table observed by the k-th CAS attempt. -/
def claim_next_job (snap : Table) (env : Nat → Table) (now : Int) : Option JobRec :=
  claimScan now env snap 0

/-- The same scan under sequential (interference-free) execution: every CAS
reads the one current table `t`; a failed CAS leaves the table unchanged,
and the call returns the re-read record together with the resulting table. -/
def claimScanSeq (now : Int) (t : Table) : List JobRec → Option JobRec × Table
  | [] => (none, t)
  | j :: rest =>
    if j.state ≠ "pending" ∧ j.state ≠ "scheduled" then claimScanSeq now t rest
    else if retryFuture now j then claimScanSeq now t rest
    else
      let res := atomicStateTransition t j.id j.state "processing" Extra.empty now
      if res.1 then (getJob res.2 j.id, res.2) else claimScanSeq now t rest

/-- Sequential `claim_next_job`: the snapshot is the current table itself. -/
def claim_next_seq (t : Table) (now : Int) : Option JobRec × Table :=
  claimScanSeq now t t

/-- queue_manager.py `QueueManager.list_jobs`: storage list then
`Job.from_dict` on every record; the first record carrying stdout/stderr
raises, so the whole call either yields all jobs or a TypeError. -/
def list_jobs_m (t : Table) (stateF : Option String) (lim : Option Nat) :
    Except QErr (List Job) :=
  (list_jobs t stateF lim).mapM Job.from_dict

/-- Contents of the job-table file: either syntactically valid JSON holding
a table, or text `json.load` rejects. -/
inductive FileData where
  | invalid
  | parsed (t : Table)

/-- storage.py `Storage._read` composed with `data.get("jobs", [])`:
a `json.JSONDecodeError` is caught and replaced by the empty document. -/
def readData : FileData → Table
  | .invalid => []
  | .parsed t => t

/-- Storage `list_jobs` starting from the raw file contents. -/
def list_jobs_file (f : FileData) (stateF : Option String) (lim : Option Nat) : Table :=
  list_jobs (readData f) stateF lim

/-- Storage `get_job` starting from the raw file contents. -/
def get_job_file (f : FileData) (jobId : String) : Option JobRec :=
  getJob (readData f) jobId

/-- Manager `get_stats` starting from the raw file contents (it scans via
`storage.list_jobs()` with no filter and no limit). -/
def get_stats_file (f : FileData) : Stats :=
  get_stats (list_jobs_file f none none)

/-- One QueueEngine operation with all its inputs (times explicit). -/
inductive QOp where
  | enq (jobId cmd : String) (mr : Nat) (runAt : Option Int) (now : Int)
  | claim (now : Int)
  | complete (jobId : String) (now : Int)
  | fail (backoff : Nat) (jobId : String) (err out errOut : Option String) (now : Int)
  | retryDlq (jobId : String) (now : Int)

/-- Effect of one QueueEngine operation on the stored table (sequential
semantics: each operation runs without interference). -/
def applyOp (t : Table) : QOp → Table
  | .enq jobId cmd mr runAt now => enqueue t jobId cmd mr runAt now
  | .claim now => (claim_next_seq t now).2
  | .complete jobId now => (complete_job t jobId now).2
  | .fail b jobId err out errOut now => (fail_job b t jobId err out errOut now).2
  | .retryDlq jobId now => (retry_dlq_job t jobId now).2

/-- Tables reachable from the empty store by QueueEngine operations. -/
inductive Reachable : Table → Prop
  | nil : Reachable []
  | step {t : Table} (op : QOp) : Reachable t → Reachable (applyOp t op)

/-- The invariant as the spec states it: attempts within budget for every
job not in state `dead`. -/
def InvAttempts (t : Table) : Prop :=
  ∀ j ∈ t, j.state ≠ "dead" → j.attempts ≤ j.max_retries

/-- The invariant that actually holds: attempts within budget for every job
in an active state (`pending`, `scheduled`, `processing`). -/
def InvActive (t : Table) : Prop :=
  ∀ j ∈ t, (j.state = "pending" ∨ j.state = "scheduled" ∨ j.state = "processing") →
    j.attempts ≤ j.max_retries

/-! ### Helper lemmas about the storage primitives -/

theorem applyExtra_empty (j : JobRec) : applyExtra j Extra.empty = j := rfl

theorem getJob_mem {t : Table} {jobId : String} {j : JobRec}
    (h : getJob t jobId = some j) : j ∈ t := by
  induction t with
  | nil => simp [getJob] at h
  | cons a rest ih =>
    by_cases ha : a.id = jobId
    · simp [getJob, ha] at h
      simp [h]
    · simp [getJob, ha] at h
      exact List.mem_cons_of_mem _ (ih h)

theorem getJob_id {t : Table} {jobId : String} {j : JobRec}
    (h : getJob t jobId = some j) : j.id = jobId := by
  induction t with
  | nil => simp [getJob] at h
  | cons a rest ih =>
    by_cases ha : a.id = jobId
    · simp [getJob, ha] at h
      simp [← h, ha]
    · simp [getJob, ha] at h
      exact ih h

theorem getJob_append_left {t : Table} {l : Table} {jobId : String} {j : JobRec}
    (h : getJob t jobId = some j) : getJob (t ++ l) jobId = some j := by
  induction t with
  | nil => simp [getJob] at h
  | cons a rest ih =>
    by_cases ha : a.id = jobId
    · simp [getJob, ha] at h ⊢
      exact h
    · simp [getJob, ha] at h ⊢
      exact ih h

theorem mem_updateFirst {jobId : String} {f : JobRec → JobRec} {t : Table} {x : JobRec}
    (h : x ∈ updateFirst jobId f t) :
    x ∈ t ∨ ∃ j, getJob t jobId = some j ∧ x = f j := by
  induction t with
  | nil => simp [updateFirst] at h
  | cons a rest ih =>
    by_cases ha : a.id = jobId
    · simp only [updateFirst, if_pos ha, List.mem_cons] at h
      rcases h with h | h
      · exact Or.inr ⟨a, by simp [getJob, ha], h⟩
      · exact Or.inl (List.mem_cons_of_mem _ h)
    · simp only [updateFirst, if_neg ha, List.mem_cons] at h
      rcases h with h | h
      · exact Or.inl (by simp [h])
      · rcases ih h with h2 | ⟨j, hj, hx⟩
        · exact Or.inl (List.mem_cons_of_mem _ h2)
        · exact Or.inr ⟨j, by simp [getJob, ha, hj], hx⟩

theorem getJob_updateFirst_self {t : Table} {jobId : String} {f : JobRec → JobRec}
    {j : JobRec} (h : getJob t jobId = some j) (hid : (f j).id = j.id) :
    getJob (updateFirst jobId f t) jobId = some (f j) := by
  induction t with
  | nil => simp [getJob] at h
  | cons a rest ih =>
    by_cases ha : a.id = jobId
    · simp only [getJob, if_pos ha, Option.some.injEq] at h
      subst h
      simp [updateFirst, if_pos ha, getJob, hid, ha]
    · simp only [getJob, if_neg ha] at h
      simp [updateFirst, if_neg ha, getJob, ha, ih h]

theorem getJob_updateFirst_ne {t : Table} {jobId other : String} {f : JobRec → JobRec}
    {j : JobRec} (h : getJob t jobId = some j) (hid : (f j).id = j.id)
    (hne : other ≠ jobId) :
    getJob (updateFirst jobId f t) other = getJob t other := by
  induction t with
  | nil => simp [updateFirst]
  | cons a rest ih =>
    by_cases ha : a.id = jobId
    · simp only [getJob, if_pos ha, Option.some.injEq] at h
      subst h
      have h1 : (f a).id ≠ other := by
        rw [hid, ha]
        exact fun e => hne e.symm
      have h2 : a.id ≠ other := by
        rw [ha]
        exact fun e => hne e.symm
      simp [updateFirst, if_pos ha, getJob, h1, h2]
    · simp only [getJob, if_neg ha] at h
      simp only [updateFirst, if_neg ha, getJob]
      by_cases hao : a.id = other
      · simp [hao]
      · simp [hao, ih h]

theorem updateFirst_absent {t : Table} {jobId : String} {f : JobRec → JobRec}
    (h : getJob t jobId = none) : updateFirst jobId f t = t := by
  induction t with
  | nil => rfl
  | cons a rest ih =>
    by_cases ha : a.id = jobId
    · simp [getJob, ha] at h
    · simp only [getJob, if_neg ha] at h
      simp [updateFirst, if_neg ha, ih h]

theorem from_dict_ne_notFound (r : JobRec) :
    Job.from_dict r ≠ Except.error QErr.notFound := by
  unfold Job.from_dict
  split
  · simp
  · simp

/-! ### Concrete records and tables shared by the witnesses -/

/-- A freshly enqueued pending job. -/
def recW : JobRec :=
  ⟨"w", "c", "pending", 0, 3, 0, 0, none, none, none, none⟩

/-- A dead-lettered job with leftover error and retry fields. -/
def recD : JobRec :=
  ⟨"d", "c", "dead", 4, 3, 0, 0, some "err", some 9, none, none⟩

/-! ### Claim theorems -/

/-- C4: for a table containing the identified job, `compare_and_transition`
returns false leaving every record unchanged when the job's current state
differs from the expected state; otherwise it returns true (the modelled
persisted write succeeds) and the identified record becomes the old record
with `state := new_state`, the extra fields merged over it, and `updated_at`
refreshed, every other record staying as it was. -/
theorem atomicStateTransition_spec (t : Table) (jobId expSt newSt : String)
    (e : Extra) (now : Int) (j : JobRec) (hj : getJob t jobId = some j) :
    (j.state ≠ expSt → atomicStateTransition t jobId expSt newSt e now = (false, t)) ∧
    (j.state = expSt →
      (atomicStateTransition t jobId expSt newSt e now).1 = true ∧
      getJob (atomicStateTransition t jobId expSt newSt e now).2 jobId =
        some ({ applyExtra { j with state := newSt } e with updated_at := now } : JobRec) ∧
      ∀ other, other ≠ jobId →
        getJob (atomicStateTransition t jobId expSt newSt e now).2 other =
          getJob t other) := by
  constructor
  · intro hne
    simp [atomicStateTransition, hj, hne]
  · intro heq
    have hid : ((fun (x : JobRec) =>
        ({ applyExtra { x with state := newSt } e with updated_at := now } : JobRec)) j).id
        = j.id := rfl
    refine ⟨?_, ?_, ?_⟩
    · simp [atomicStateTransition, hj, heq]
    · simp only [atomicStateTransition, hj, if_pos heq]
      exact getJob_updateFirst_self hj hid
    · intro other hne
      simp only [atomicStateTransition, hj, if_pos heq]
      exact getJob_updateFirst_ne hj hid hne

/-- Witness for C4 at a one-job table: a CAS expecting the wrong state
fails and changes nothing; a CAS expecting the actual state succeeds. -/
theorem atomicStateTransition_spec_witness :
    atomicStateTransition [recW] "w" "scheduled" "processing" Extra.empty 5 =
      (false, [recW]) ∧
    (atomicStateTransition [recW] "w" "pending" "processing" Extra.empty 5).1 = true := by
  have h1 := atomicStateTransition_spec [recW] "w" "scheduled" "processing"
    Extra.empty 5 recW (by decide)
  have h2 := atomicStateTransition_spec [recW] "w" "pending" "processing"
    Extra.empty 5 recW (by decide)
  exact ⟨h1.1 (by decide), (h2.2 (by decide)).1⟩

/-- C5: `complete_job` raises NotFound exactly when the id is absent, and
otherwise — whatever the job's current state — rewrites the record with
`state := "completed"` and a fresh `updated_at`, leaving every other record
unchanged. -/
theorem complete_job_spec (t : Table) (jobId : String) (now : Int) :
    ((complete_job t jobId now).1 = Except.error QErr.notFound ↔
      getJob t jobId = none) ∧
    (∀ j, getJob t jobId = some j →
      getJob (complete_job t jobId now).2 jobId =
        some { j with state := "completed", updated_at := now } ∧
      ∀ other, other ≠ jobId →
        getJob (complete_job t jobId now).2 other = getJob t other) := by
  constructor
  · cases hg : getJob t jobId with
    | none => simp [complete_job, hg]
    | some j =>
      simp only [complete_job, hg]
      constructor
      · intro hcontra
        exact absurd hcontra (from_dict_ne_notFound _)
      · intro hcontra
        simp at hcontra
  · intro j hj
    have hid : (({ j with state := "completed", updated_at := now } : JobRec)).id
        = j.id := rfl
    constructor
    · simp only [complete_job, hj]
      exact getJob_updateFirst_self hj hid
    · intro other hne
      simp only [complete_job, hj]
      exact getJob_updateFirst_ne hj hid hne

/-- Witness for C5: completing a pending job (a state other than
`processing`) succeeds and stores `completed`. -/
theorem complete_job_spec_witness :
    getJob (complete_job [recW] "w" 7).2 "w" =
      some { recW with state := "completed", updated_at := 7 } :=
  ((complete_job_spec [recW] "w" 7).2 recW (by decide)).1

/-- C6: for an existing job, `retry_dlq_job` fails with InvalidState and
changes nothing unless the state is `dead`; on a dead job it resets
`attempts := 0`, clears `error_message` and `next_retry_at`, sets state
`pending` and refreshes `updated_at`, leaving other records unchanged. -/
theorem retry_dlq_job_spec (t : Table) (jobId : String) (now : Int) (j : JobRec)
    (hj : getJob t jobId = some j) :
    (j.state ≠ "dead" →
      retry_dlq_job t jobId now = (Except.error QErr.invalidState, t)) ∧
    (j.state = "dead" →
      getJob (retry_dlq_job t jobId now).2 jobId =
        some { j with state := "pending", attempts := 0, error_message := none, next_retry_at := none, updated_at := now } ∧
      ∀ other, other ≠ jobId →
        getJob (retry_dlq_job t jobId now).2 other = getJob t other) := by
  constructor
  · intro hne
    simp [retry_dlq_job, hj, hne]
  · intro heq
    have hid : (({ j with state := "pending", attempts := 0, error_message := none, next_retry_at := none, updated_at := now } : JobRec)).id = j.id := rfl
    constructor
    · simp only [retry_dlq_job, hj, if_pos heq]
      exact getJob_updateFirst_self hj hid
    · intro other hne
      simp only [retry_dlq_job, hj, if_pos heq]
      exact getJob_updateFirst_ne hj hid hne

/-- Witness for C6: replay on a pending job fails with InvalidState and
changes nothing; replay on a dead job resets it to a fresh pending job. -/
theorem retry_dlq_job_spec_witness :
    retry_dlq_job [recW] "w" 9 = (Except.error QErr.invalidState, [recW]) ∧
    getJob (retry_dlq_job [recD] "d" 9).2 "d" =
      some { recD with state := "pending", attempts := 0, error_message := none, next_retry_at := none, updated_at := 9 } := by
  have h1 := retry_dlq_job_spec [recW] "w" 9 recW (by decide)
  have h2 := retry_dlq_job_spec [recD] "d" 9 recD (by decide)
  exact ⟨h1.1 (by decide), (h2.2 (by decide)).1⟩

/-- C3: when the incremented attempts value stays within `max_retries`,
`fail_job` stores the job as `scheduled` with
`next_retry_at = now + backoff_base ^ (k - 1)` where `k` is the new
attempts value; in particular the first failure (k = 1) schedules the retry
exactly one second out for every base. -/
theorem fail_job_backoff (b : Nat) (t : Table) (jobId : String)
    (err out errOut : Option String) (now : Int) (j : JobRec)
    (hj : getJob t jobId = some j) (hle : j.attempts + 1 ≤ j.max_retries) :
    ∃ nj, getJob (fail_job b t jobId err out errOut now).2 jobId = some nj ∧
      nj.state = "scheduled" ∧ nj.attempts = j.attempts + 1 ∧
      nj.next_retry_at = some (now + (b : Int) ^ (j.attempts + 1 - 1)) ∧
      (j.attempts = 0 → nj.next_retry_at = some (now + 1)) := by
  have hnot : ¬ (j.attempts + 1 > j.max_retries) := by omega
  simp only [fail_job, hj, if_neg hnot]
  refine ⟨_, getJob_updateFirst_self hj rfl, rfl, rfl, rfl, ?_⟩
  intro h0
  simp [h0]

/-- Witness for C3: first failure of a fresh job with base 7 schedules the
retry exactly 1 second out. -/
theorem fail_job_backoff_witness :
    ∃ nj, getJob (fail_job 7 [recW] "w" (some "e") none none 100).2 "w" = some nj ∧
      nj.state = "scheduled" ∧ nj.attempts = recW.attempts + 1 ∧
      nj.next_retry_at = some (100 + (7 : Int) ^ (recW.attempts + 1 - 1)) ∧
      (recW.attempts = 0 → nj.next_retry_at = some (100 + 1)) :=
  fail_job_backoff 7 [recW] "w" (some "e") none none 100 recW (by decide) (by decide)

/-- A one-job table holding a freshly enqueued pending job `j1`. -/
def t7 : Table := enqueue [] "j1" "cmd" 3 none 0

/-- The table after failing `j1` once while supplying stdout/stderr. -/
def failedT7 : Table :=
  (fail_job 2 t7 "j1" (some "boom") (some "captured-out") (some "captured-err") 10).2

/-- C7 (code bug): `fail_job` does persist the supplied stdout/stderr into
the stored record, but the Job dataclass lacks those fields, so the
`Job.from_dict` re-read inside `fail_job` itself raises TypeError, and so
does every later operation that converts the record back to a Job, such as
the manager's list.  The claim that these reads succeed with the captured
output present fails at this input. -/
theorem fail_job_stdout_read_back :
    (fail_job 2 t7 "j1" (some "boom") (some "captured-out") (some "captured-err") 10).1 =
      Except.error QErr.typeError ∧
    (getJob failedT7 "j1").map (fun r => (r.stdout, r.stderr)) =
      some (some "captured-out", some "captured-err") ∧
    list_jobs_m failedT7 none none = Except.error QErr.typeError := by
  decide

/-- A record whose state string is the foreign value `"total"`. -/
def jTotal : JobRec :=
  ⟨"x", "c", "total", 0, 3, 0, 0, none, none, none, none⟩

/-- C8 (code bug): `get_stats` checks `if s in stats`, and `"total"` is a
key of the stats dict, so a job whose state string is `"total"` increments
the total tally instead of the defensive `failed` bucket: on a one-record
table the code returns total 2 and failed 0, where the claim demands
failed 1 and total 1. -/
theorem get_stats_total_bucket :
    get_stats [jTotal] = ⟨0, 0, 0, 0, 0, 2⟩ ∧
    get_stats [jTotal] ≠ ⟨0, 0, 0, 1, 0, 1⟩ := by
  decide

/-- C9 counterexample: with one pending job, the supplied filter `""` and
the supplied limit `0` are both falsy in Python, so `list_jobs` ignores
them and returns the whole table, while the claim demands the empty list
(no job matches state `""`, and a cap of 0 allows no entries). -/
theorem list_jobs_truthiness_counterexample :
    list_jobs [recW] (some "") (some 0) = [recW] ∧
    list_jobs [recW] (some "") (some 0) ≠ [] := by
  decide

/-- The spec's filter: jobs whose state matches, in storage order. -/
def specFilter (t : Table) (stateF : Option String) : Table :=
  match stateF with
  | some s => t.filter (fun j => j.state == s)
  | none => t

/-- C9 amended: for every store contents, optional state filter and
optional limit, provided a supplied filter is a nonempty string and a
supplied limit is positive, `list_jobs` returns exactly the matching jobs
in storage order truncated to at most the limit (an empty-string filter
and a zero limit are each treated as absent).  The operation is a pure
read: the stored table is not part of the result. -/
theorem list_jobs_spec (t : Table) (stateF : Option String) (lim : Option Nat)
    (hs : ∀ s, stateF = some s → s ≠ "") (hl : ∀ n, lim = some n → 0 < n) :
    list_jobs t stateF lim =
      (match lim with
       | some n => (specFilter t stateF).take n
       | none => specFilter t stateF) ∧
    (∀ n, lim = some n → (list_jobs t stateF lim).length ≤ n) := by
  have hlen : ∀ (n : Nat) (l : Table), (l.take n).length ≤ n := by
    intro n l
    simp [List.length_take]
  constructor
  · cases stateF with
    | none =>
      cases lim with
      | none => rfl
      | some n =>
        have hn : n ≠ 0 := Nat.pos_iff_ne_zero.mp (hl n rfl)
        simp [list_jobs, specFilter, hn]
    | some s =>
      have hsne : s ≠ "" := hs s rfl
      cases lim with
      | none => simp [list_jobs, specFilter, hsne]
      | some n =>
        have hn : n ≠ 0 := Nat.pos_iff_ne_zero.mp (hl n rfl)
        simp [list_jobs, specFilter, hsne, hn]
  · intro n hn
    cases hn
    have hn0 : n ≠ 0 := Nat.pos_iff_ne_zero.mp (hl n rfl)
    cases stateF with
    | none =>
      simp only [list_jobs, if_pos hn0]
      exact hlen n t
    | some s =>
      have hsne : s ≠ "" := hs s rfl
      simp only [list_jobs, if_pos hsne, if_pos hn0]
      exact hlen n _

/-- Witness for C9 amended: a two-job table, a real filter and limit 1. -/
theorem list_jobs_spec_witness :
    list_jobs [recW, recD] (some "dead") (some 1) =
      (specFilter [recW, recD] (some "dead")).take 1 ∧
    (∀ n, (some 1 : Option Nat) = some n →
      (list_jobs [recW, recD] (some "dead") (some 1)).length ≤ n) := by
  have h := list_jobs_spec [recW, recD] (some "dead") (some 1)
    (by intro s hsome; cases hsome; decide)
    (by intro n hsome; cases hsome; decide)
  exact h

/-- C10: when the job-table file is not valid JSON, `_read` falls back to
the empty document, so every read path behaves as over an empty table:
list returns nothing for every filter and limit, get finds no id, and the
statistics are all zero with total 0. -/
theorem invalid_json_reads_empty :
    (∀ stateF lim, list_jobs_file FileData.invalid stateF lim = []) ∧
    (∀ jobId, get_job_file FileData.invalid jobId = none) ∧
    get_stats_file FileData.invalid = ⟨0, 0, 0, 0, 0, 0⟩ := by
  refine ⟨?_, ?_, rfl⟩
  · intro stateF lim
    cases stateF with
    | none => cases lim with
      | none => rfl
      | some n => simp [list_jobs_file, list_jobs, readData]
    | some s => cases lim with
      | none => simp [list_jobs_file, list_jobs, readData]
      | some n => simp [list_jobs_file, list_jobs, readData]
  · intro jobId
    rfl

/-- Eligibility as the spec words it: state `pending` or `scheduled`, and
`next_retry_at` absent or not strictly in the future. -/
def eligibleB (now : Int) (j : JobRec) : Bool :=
  (j.state == "pending" || j.state == "scheduled") &&
    (match j.next_retry_at with
     | some ts => decide (ts ≤ now)
     | none => true)

/-- The spec's description of the claim loop over the already-filtered
eligible candidates: attempt the CAS on each one in turn (the k-th CAS
attempt observing table `env k`), return the re-read record of the first
success, none when every CAS fails. -/
def specClaimAttempts (now : Int) (env : Nat → Table) :
    List JobRec → Nat → Option JobRec
  | [], _ => none
  | j :: rest, k =>
    let res := atomicStateTransition (env k) j.id j.state "processing" Extra.empty now
    if res.1 then getJob res.2 j.id else specClaimAttempts now env rest (k + 1)

theorem eligibleB_eq (now : Int) (j : JobRec) :
    eligibleB now j =
      ((j.state == "pending" || j.state == "scheduled") && ! retryFuture now j) := by
  cases hret : j.next_retry_at with
  | none => simp [eligibleB, retryFuture, hret]
  | some ts =>
    simp only [eligibleB, retryFuture, hret]
    by_cases h : ts ≤ now
    · have h2 : ¬ ts > now := by omega
      simp [h, h2]
    · have h2 : ts > now := by omega
      simp [h, h2]

theorem claimScan_filter (now : Int) (env : Nat → Table) (l : List JobRec) :
    ∀ k, claimScan now env l k =
      specClaimAttempts now env (l.filter (eligibleB now)) k := by
  induction l with
  | nil => intro k; rfl
  | cons j rest ih =>
    intro k
    simp only [claimScan]
    by_cases hps : j.state ≠ "pending" ∧ j.state ≠ "scheduled"
    · have hB : ¬ eligibleB now j = true := by
        obtain ⟨h1, h2⟩ := hps
        simp [eligibleB, h1, h2]
      rw [if_pos hps, List.filter_cons_of_neg hB]
      exact ih k
    · rw [if_neg hps]
      have hor : j.state = "pending" ∨ j.state = "scheduled" := by
        by_cases h1 : j.state = "pending"
        · exact Or.inl h1
        · exact Or.inr (by tauto)
      have hstB : (j.state == "pending" || j.state == "scheduled") = true := by
        rcases hor with h | h <;> simp [h]
      by_cases hfut : retryFuture now j = true
      · have hB : ¬ eligibleB now j = true := by
          simp [eligibleB_eq, hstB, hfut]
        rw [if_pos hfut, List.filter_cons_of_neg hB]
        exact ih k
      · have hB : eligibleB now j = true := by
          simp only [eligibleB_eq, hstB, Bool.true_and, Bool.not_eq_true]
          simp only [Bool.not_eq_true] at hfut
          simp [hfut]
        rw [if_neg hfut, List.filter_cons_of_pos hB]
        simp only [specClaimAttempts]
        cases hres :
          (atomicStateTransition (env k) j.id j.state "processing" Extra.empty now).1 with
        | true => simp [hres]
        | false => simp [hres, ih (k + 1)]

/-- C1: `claim_next_job` scans the snapshot in storage order, skips exactly
the candidates whose state is not `pending`/`scheduled` or whose
`next_retry_at` is set and strictly in the future, attempts the CAS to
`processing` on each remaining candidate in turn — the k-th attempt against
the table `env k` it reads, continuing past failed CASes — and returns the
re-read record of the first successful CAS, or none when every CAS fails. -/
theorem claim_next_job_spec (snap : Table) (env : Nat → Table) (now : Int) :
    claim_next_job snap env now =
      specClaimAttempts now env (snap.filter (eligibleB now)) 0 :=
  claimScan_filter now env snap 0

/-! ### The attempts budget across operation sequences -/

theorem atomicStateTransition_table (t : Table) (jobId fromSt toSt : String)
    (e : Extra) (now : Int) :
    (atomicStateTransition t jobId fromSt toSt e now).2 = t ∨
    ∃ x, getJob t jobId = some x ∧ x.state = fromSt ∧
      (atomicStateTransition t jobId fromSt toSt e now).2 =
        updateFirst jobId
          (fun y => { applyExtra { y with state := toSt } e with updated_at := now }) t := by
  cases hg : getJob t jobId with
  | none =>
    left
    simp [atomicStateTransition, hg]
  | some x =>
    by_cases hst : x.state = fromSt
    · right
      refine ⟨x, ?_, hst, ?_⟩
      · rfl
      · simp [atomicStateTransition, hg, hst]
    · left
      simp [atomicStateTransition, hg, hst]

theorem claimScanSeq_table_shape (now : Int) (t : Table) (l : List JobRec) :
    (claimScanSeq now t l).2 = t ∨
    ∃ i x, getJob t i = some x ∧ (x.state = "pending" ∨ x.state = "scheduled") ∧
      (claimScanSeq now t l).2 = updateFirst i
        (fun y => { applyExtra { y with state := "processing" } Extra.empty with updated_at := now }) t := by
  induction l with
  | nil => exact Or.inl rfl
  | cons j rest ih =>
    simp only [claimScanSeq]
    by_cases hps : j.state ≠ "pending" ∧ j.state ≠ "scheduled"
    · rw [if_pos hps]
      exact ih
    · rw [if_neg hps]
      have hor : j.state = "pending" ∨ j.state = "scheduled" := by
        by_cases h1 : j.state = "pending"
        · exact Or.inl h1
        · exact Or.inr (by tauto)
      by_cases hfut : retryFuture now j = true
      · rw [if_pos hfut]
        exact ih
      · rw [if_neg hfut]
        cases hres :
          (atomicStateTransition t j.id j.state "processing" Extra.empty now).1 with
        | false =>
          simp only [hres, Bool.false_eq_true, if_false]
          exact ih
        | true =>
          rcases atomicStateTransition_table t j.id j.state "processing" Extra.empty now
            with htab | ⟨x, hg, hst, htab⟩
          · left
            simp [hres, htab]
          · right
            refine ⟨j.id, x, hg, ?_, ?_⟩
            · rw [hst]
              exact hor
            · simp [hres, htab]

theorem invActive_applyOp (t : Table) (op : QOp) (h : InvActive t) :
    InvActive (applyOp t op) := by
  cases op with
  | enq jobId cmd mr runAt now =>
    intro j hj hstate
    simp only [applyOp, enqueue, List.mem_append, List.mem_singleton] at hj
    rcases hj with hj | hj
    · exact h j hj hstate
    · subst hj
      simp
  | claim now =>
    intro j hj hstate
    simp only [applyOp, claim_next_seq] at hj
    rcases claimScanSeq_table_shape now t t with htab | ⟨i, x, hg, hxs, htab⟩
    · rw [htab] at hj
      exact h j hj hstate
    · rw [htab] at hj
      rcases mem_updateFirst hj with hmem | ⟨y, hy, hjeq⟩
      · exact h j hmem hstate
      · have hyx : y = x := by
          have hcopy := hg
          rw [hy] at hcopy
          exact Option.some.inj hcopy
        have hx_le : x.attempts ≤ x.max_retries := by
          apply h x (getJob_mem hg)
          rcases hxs with h1 | h1
          · exact Or.inl h1
          · exact Or.inr (Or.inl h1)
        subst hjeq
        subst hyx
        exact hx_le
  | complete jobId now =>
    intro j hj hstate
    simp only [applyOp] at hj
    cases hg : getJob t jobId with
    | none =>
      simp only [complete_job, hg] at hj
      exact h j hj hstate
    | some x =>
      simp only [complete_job, hg] at hj
      rcases mem_updateFirst hj with hmem | ⟨y, hy, hjeq⟩
      · exact h j hmem hstate
      · subst hjeq
        rcases hstate with h1 | h1 | h1 <;> simp at h1
  | fail b jobId err out errOut now =>
    intro j hj hstate
    simp only [applyOp] at hj
    cases hg : getJob t jobId with
    | none =>
      simp only [fail_job, hg] at hj
      exact h j hj hstate
    | some x =>
      by_cases hgt : x.attempts + 1 > x.max_retries
      · simp only [fail_job, hg, if_pos hgt] at hj
        rcases mem_updateFirst hj with hmem | ⟨y, hy, hjeq⟩
        · exact h j hmem hstate
        · subst hjeq
          rcases hstate with h1 | h1 | h1 <;> simp at h1
      · simp only [fail_job, hg, if_neg hgt] at hj
        rcases mem_updateFirst hj with hmem | ⟨y, hy, hjeq⟩
        · exact h j hmem hstate
        · subst hjeq
          exact Nat.not_lt.mp hgt
  | retryDlq jobId now =>
    intro j hj hstate
    simp only [applyOp] at hj
    cases hg : getJob t jobId with
    | none =>
      simp only [retry_dlq_job, hg] at hj
      exact h j hj hstate
    | some x =>
      by_cases hd : x.state = "dead"
      · simp only [retry_dlq_job, hg, if_pos hd] at hj
        rcases mem_updateFirst hj with hmem | ⟨y, hy, hjeq⟩
        · exact h j hmem hstate
        · subst hjeq
          exact Nat.zero_le _
      · simp only [retry_dlq_job, hg, if_neg hd] at hj
        exact h j hj hstate

theorem reachable_invActive : ∀ t, Reachable t → InvActive t := by
  intro t h
  induction h with
  | nil =>
    intro j hj
    cases hj
  | step op hprev ih => exact invActive_applyOp _ op ih

theorem dead_transition_char (t : Table) (op : QOp) (jobId : String) (j jNew : JobRec)
    (hj : getJob t jobId = some j) (hnew : getJob (applyOp t op) jobId = some jNew)
    (hnd : j.state ≠ "dead") :
    (jNew.state = "dead" ↔ ∃ b err out errOut now,
      op = QOp.fail b jobId err out errOut now ∧ j.max_retries < j.attempts + 1) := by
  cases op with
  | enq jobId2 cmd mr runAt now =>
    have hsame : getJob (applyOp t (QOp.enq jobId2 cmd mr runAt now)) jobId = some j := by
      simp only [applyOp, enqueue]
      exact getJob_append_left hj
    rw [hsame] at hnew
    have hjj := Option.some.inj hnew
    constructor
    · intro hdead
      rw [← hjj] at hdead
      exact absurd hdead hnd
    · rintro ⟨b, e, o, eo, n, hop, -⟩
      simp at hop
  | claim now =>
    simp only [applyOp, claim_next_seq] at hnew
    rcases claimScanSeq_table_shape now t t with htab | ⟨i, x, hg, hxs, htab⟩
    · rw [htab, hj] at hnew
      have hjj := Option.some.inj hnew
      constructor
      · intro hdead
        rw [← hjj] at hdead
        exact absurd hdead hnd
      · rintro ⟨b, e, o, eo, n, hop, -⟩
        simp at hop
    · rw [htab] at hnew
      by_cases hii : jobId = i
      · subst hii
        rw [getJob_updateFirst_self hg rfl] at hnew
        have hjj := Option.some.inj hnew
        constructor
        · intro hdead
          rw [← hjj] at hdead
          simp [applyExtra_empty] at hdead
        · rintro ⟨b, e, o, eo, n, hop, -⟩
          simp at hop
      · rw [getJob_updateFirst_ne hg rfl hii, hj] at hnew
        have hjj := Option.some.inj hnew
        constructor
        · intro hdead
          rw [← hjj] at hdead
          exact absurd hdead hnd
        · rintro ⟨b, e, o, eo, n, hop, -⟩
          simp at hop
  | complete jobId2 now =>
    simp only [applyOp] at hnew
    cases hg : getJob t jobId2 with
    | none =>
      simp only [complete_job, hg] at hnew
      rw [hj] at hnew
      have hjj := Option.some.inj hnew
      constructor
      · intro hdead
        rw [← hjj] at hdead
        exact absurd hdead hnd
      · rintro ⟨b, e, o, eo, n, hop, -⟩
        simp at hop
    | some x =>
      simp only [complete_job, hg] at hnew
      by_cases hii : jobId = jobId2
      · subst hii
        rw [getJob_updateFirst_self hg rfl] at hnew
        have hjj := Option.some.inj hnew
        constructor
        · intro hdead
          rw [← hjj] at hdead
          simp at hdead
        · rintro ⟨b, e, o, eo, n, hop, -⟩
          simp at hop
      · rw [getJob_updateFirst_ne hg rfl hii, hj] at hnew
        have hjj := Option.some.inj hnew
        constructor
        · intro hdead
          rw [← hjj] at hdead
          exact absurd hdead hnd
        · rintro ⟨b, e, o, eo, n, hop, -⟩
          simp at hop
  | retryDlq jobId2 now =>
    simp only [applyOp] at hnew
    cases hg : getJob t jobId2 with
    | none =>
      simp only [retry_dlq_job, hg] at hnew
      rw [hj] at hnew
      have hjj := Option.some.inj hnew
      constructor
      · intro hdead
        rw [← hjj] at hdead
        exact absurd hdead hnd
      · rintro ⟨b, e, o, eo, n, hop, -⟩
        simp at hop
    | some x =>
      by_cases hd : x.state = "dead"
      · simp only [retry_dlq_job, hg, if_pos hd] at hnew
        by_cases hii : jobId = jobId2
        · subst hii
          rw [getJob_updateFirst_self hg rfl] at hnew
          have hjj := Option.some.inj hnew
          constructor
          · intro hdead
            rw [← hjj] at hdead
            simp at hdead
          · rintro ⟨b, e, o, eo, n, hop, -⟩
            simp at hop
        · rw [getJob_updateFirst_ne hg rfl hii, hj] at hnew
          have hjj := Option.some.inj hnew
          constructor
          · intro hdead
            rw [← hjj] at hdead
            exact absurd hdead hnd
          · rintro ⟨b, e, o, eo, n, hop, -⟩
            simp at hop
      · simp only [retry_dlq_job, hg, if_neg hd] at hnew
        rw [hj] at hnew
        have hjj := Option.some.inj hnew
        constructor
        · intro hdead
          rw [← hjj] at hdead
          exact absurd hdead hnd
        · rintro ⟨b, e, o, eo, n, hop, -⟩
          simp at hop
  | fail b0 jobId2 e0 o0 eo0 n0 =>
    simp only [applyOp] at hnew
    cases hg : getJob t jobId2 with
    | none =>
      simp only [fail_job, hg] at hnew
      rw [hj] at hnew
      have hjj := Option.some.inj hnew
      constructor
      · intro hdead
        rw [← hjj] at hdead
        exact absurd hdead hnd
      · rintro ⟨b, e, o, eo, n, hop, -⟩
        injection hop with hb hid2 he ho heo hn
        subst hid2
        rw [hg] at hj
        cases hj
    | some x =>
      by_cases hgt : x.attempts + 1 > x.max_retries
      · simp only [fail_job, hg, if_pos hgt] at hnew
        by_cases hii : jobId = jobId2
        · subst hii
          have hxj : x = j := by
            rw [hj] at hg
            exact (Option.some.inj hg).symm
          subst hxj
          rw [getJob_updateFirst_self hg rfl] at hnew
          have hjj := Option.some.inj hnew
          constructor
          · intro _
            exact ⟨b0, e0, o0, eo0, n0, rfl, hgt⟩
          · intro _
            rw [← hjj]
        · rw [getJob_updateFirst_ne hg rfl hii, hj] at hnew
          have hjj := Option.some.inj hnew
          constructor
          · intro hdead
            rw [← hjj] at hdead
            exact absurd hdead hnd
          · rintro ⟨b, e, o, eo, n, hop, -⟩
            injection hop with hb hid2 he ho heo hn
            exact absurd hid2.symm hii
      · simp only [fail_job, hg, if_neg hgt] at hnew
        by_cases hii : jobId = jobId2
        · subst hii
          have hxj : x = j := by
            rw [hj] at hg
            exact (Option.some.inj hg).symm
          subst hxj
          rw [getJob_updateFirst_self hg rfl] at hnew
          have hjj := Option.some.inj hnew
          constructor
          · intro hdead
            rw [← hjj] at hdead
            simp at hdead
          · rintro ⟨b, e, o, eo, n, hop, hlt⟩
            exact absurd hlt hgt
        · rw [getJob_updateFirst_ne hg rfl hii, hj] at hnew
          have hjj := Option.some.inj hnew
          constructor
          · intro hdead
            rw [← hjj] at hdead
            exact absurd hdead hnd
          · rintro ⟨b, e, o, eo, n, hop, -⟩
            injection hop with hb hid2 he ho heo hn
            exact absurd hid2.symm hii

/-- C2 amended: over every sequence of QueueEngine operations,
`attempts ≤ max_retries` holds for every job in an active state (`pending`,
`scheduled`, `processing`) — completing a dead job can leave a non-dead
record over budget, so the invariant cannot cover every non-dead state —
and across any single operation an existing non-dead job becomes `dead`
exactly when the operation is a fail on that job whose incremented attempts
value exceeds its `max_retries`. -/
theorem attempts_invariant_amended :
    (∀ t, Reachable t → InvActive t) ∧
    (∀ (t : Table) (op : QOp) (jobId : String) (j jNew : JobRec),
      getJob t jobId = some j → getJob (applyOp t op) jobId = some jNew →
      j.state ≠ "dead" →
      (jNew.state = "dead" ↔ ∃ b err out errOut now,
        op = QOp.fail b jobId err out errOut now ∧ j.max_retries < j.attempts + 1)) :=
  ⟨reachable_invActive, fun t op jobId j jNew hj hnew hnd =>
    dead_transition_char t op jobId j jNew hj hnew hnd⟩

/-- Enqueue with max_retries 0, fail once (job goes dead with attempts 1),
then complete it: the resulting table violates the claimed invariant. -/
def c2Bad : Table :=
  applyOp (applyOp (applyOp [] (QOp.enq "a" "c" 0 none 0))
    (QOp.fail 2 "a" none none none 5)) (QOp.complete "a" 6)

/-- C2 counterexample: a reachable table where a job in state `completed`
(not `dead`) has attempts 1 above its max_retries 0 — `complete_job` is not
state-gated, so completing a dead job revives an over-budget record. -/
theorem attempts_invariant_counterexample :
    Reachable c2Bad ∧ ¬ InvAttempts c2Bad := by
  constructor
  · exact Reachable.step (QOp.complete "a" 6)
      (Reachable.step (QOp.fail 2 "a" none none none 5)
        (Reachable.step (QOp.enq "a" "c" 0 none 0) Reachable.nil))
  · unfold InvAttempts
    decide

/-- The record enqueued by `enqueue [] "a" "c" 0 none 0`. -/
def recA : JobRec := ⟨"a", "c", "pending", 0, 0, 0, 0, none, none, none, none⟩

/-- The record after failing `recA` once (over budget, hence dead). -/
def recADead : JobRec := ⟨"a", "c", "dead", 1, 0, 0, 5, some "", none, none, none⟩

/-- Witness for C2 amended: applies the invariant to the one-job reachable
table `[recA]`, and the dead-transition characterization to the fail step
that kills it. -/
theorem attempts_invariant_amended_witness :
    recA.attempts ≤ recA.max_retries ∧ recADead.state = "dead" := by
  refine ⟨?_, ?_⟩
  · exact attempts_invariant_amended.1 [recA]
      (Reachable.step (QOp.enq "a" "c" 0 none 0) Reachable.nil)
      recA (by decide) (Or.inl (by decide))
  · exact (attempts_invariant_amended.2 [recA] (QOp.fail 2 "a" none none none 5) "a"
      recA recADead (by decide) (by decide) (by decide)).mpr
      ⟨2, none, none, none, 5, rfl, by decide⟩

end JobQueue
